import Mathlib

/-!
Verification of the RMath fixed-dimension vector/matrix library
(`vec.hpp`, `mat.hpp`, `range.hpp`) against its specification.

Modelling conventions.  A matrix `Mat<T, Row, Col>` is observed through
`operator[](row, col)`, which reads the row-major buffer
`_data[row * Col + col]`; we model a matrix by its entry function
`ℕ → ℕ → ℚ`, and every statement quantifies only over the in-bounds
indices `row < Row`, `col < Col` that exist in the C++ buffer.  Exact
rationals `ℚ` stand for the numeric element type, so the library's own
threshold comparisons against `1e-9` are modelled exactly as comparisons
against `1 / 10^9`.  The vector geometry functions (`Length`,
`Normalize`) take a square root, so they are modelled over `ℝ`.
The accumulator of `Trace` and the `static_cast` of a fractional value
to an integer type truncate toward zero; `truncQ` models that cast.
-/

/-- Fixed epsilon `1e-9` used by `Inverse` and `Rank` in `mat.hpp`. -/
def EPS : ℚ := 1 / 1000000000

/-- Failures thrown by the library (`throw std::runtime_error(...)`),
named as in the specification's error taxonomy. -/
inductive MathError where
  | singularMatrix : MathError
  | sizeMismatch : MathError

/-- Entry function of a `Mat<T, Row, Col>`; only arguments below the
dimension bounds correspond to buffer cells. -/
abbrev MatQ := ℕ → ℕ → ℚ

/-- Entry function of a `Vec<T, N>` over the reals. -/
abbrev VecR := ℕ → ℝ

/-- Truncation toward zero: the behaviour of a C++ `static_cast` from a
fractional value to an integer type. -/
def truncQ (x : ℚ) : ℤ := if 0 ≤ x then ⌊x⌋ else ⌈x⌉

/-- Models `Mat<T, N, N>::MakeIdentity` (mat.hpp 161-168): a
default-constructed (all-zero) matrix whose diagonal cells `res[i, i]`
for `i < N` are then set to `1`. -/
def makeIdentity (n : ℕ) : MatQ := fun i j => if i = j ∧ i < n then 1 else 0

/-- Models `MinorMatrix(mat, omitRow, omitCol)` (mat.hpp 682-703): the
skip-loops copy row `r` of the input to row `rr` of the result where
`r = rr` for `rr < omitRow` and `r = rr + 1` otherwise, and likewise
for columns. -/
def minorQ (A : MatQ) (omitRow omitCol : ℕ) : MatQ :=
  fun i j => A (if i < omitRow then i else i + 1) (if j < omitCol then j else j + 1)

/-- Models `Det` (mat.hpp 706-729).  `Size == 1` returns `mat[0]`
(buffer cell `(0,0)`); `Size == 2` returns `ad - bc`; otherwise the loop
accumulates `det += sign * mat[0, j] * Det(MinorMatrix(mat, 0, j))`
with an `int sign` starting at `1` and negated each iteration, here a
fold carrying the pair (accumulator, sign).  A `0 × 0` matrix takes the
loop branch and returns the initial accumulator `0`. -/
def detQ : ℕ → MatQ → ℚ
  | 0, _ => 0
  | 1, A => A 0 0
  | 2, A => A 0 0 * A 1 1 - A 0 1 * A 1 0
  | n + 3, A =>
      ((List.range (n + 3)).foldl
        (fun (p : ℚ × ℤ) j =>
          (p.1 + (p.2 : ℚ) * A 0 j * detQ (n + 2) (minorQ A 0 j), -p.2))
        ((0 : ℚ), (1 : ℤ))).1

/-- Models `Cofactor(mat, row, col)` (mat.hpp 732-737): the signed
determinant of the minor at `(row, col)`.  The size argument `m` is the
dimension of the minor, i.e. `Size - 1` at the C++ call site. -/
def cofactorQ (m : ℕ) (A : MatQ) (row col : ℕ) : ℚ :=
  if (row + col) % 2 = 0 then detQ m (minorQ A row col) else -detQ m (minorQ A row col)

/-- Models `Adjoint` (mat.hpp 740-756): for `Size == 1` the matrix
`Mat<T,1,1>{1}`, otherwise `adj[c, r] = Cofactor(mat, r, c)`, i.e. the
entry of `adj` at `(i, j)` is the cofactor at `(j, i)`. -/
def adjointQ (n : ℕ) (A : MatQ) : MatQ :=
  if n = 1 then fun _ _ => 1
  else fun i j => cofactorQ (n - 1) A j i

/-- Models `Inverse` (mat.hpp 759-769): throws when `|det| < 1e-9`,
otherwise returns `Adjoint(mat) * (1 / det)`, the scalar product
multiplying every entry of the adjoint by `1 / det`. -/
def inverseQ (n : ℕ) (A : MatQ) : Except MathError MatQ :=
  let det := detQ n A
  if |det| < EPS then .error .singularMatrix
  else .ok (fun i j => adjointQ n A i j * (1 / det))

/-- Models `Trace` (mat.hpp 772-781).  The accumulator `auto trace = 0`
is a C++ `int`; each `trace += mat[i, i]` converts the intermediate sum
back to `int`, truncating toward zero whenever the element type is
fractional.  The accumulator is therefore an `ℤ`. -/
def traceCode (n : ℕ) (A : MatQ) : ℤ :=
  (List.range n).foldl (fun acc i => truncQ ((acc : ℚ) + A i i)) 0

/-- State of the `Rank` elimination (mat.hpp 784-821): the working copy
`temp`, the `row_used` flags, and the pivot count `rank`. -/
structure RankSt where
  temp : MatQ
  used : ℕ → Bool
  rank : ℕ

/-- Pivot search of `Rank` for column `i`: the first row `j < Row` with
`!row_used[j]` and `|temp[j, i]| > 1e-9`. -/
def findPivot (R : ℕ) (st : RankSt) (i : ℕ) : Option ℕ :=
  (List.range R).find? fun j => !st.used j && decide (EPS < |st.temp j i|)

/-- Body of one column iteration of `Rank`: if a pivot is found it is
marked used, the rank is incremented, and every still-unused row `j`
gets `temp[j, k] -= (temp[j, i] / temp[pivot, i]) * temp[pivot, k]` for
`k` from `i` to `Col - 1` (the factor is read before row `j` is
modified, and row `pivot` is never modified, so the simultaneous
functional update below agrees with the in-place C++ loops). -/
def elimStep (R C : ℕ) (st : RankSt) (i : ℕ) : RankSt :=
  match findPivot R st i with
  | none => st
  | some p =>
      let usedNext : ℕ → Bool := fun j => if j = p then true else st.used j
      let tempNext : MatQ := fun j k =>
        if j < R ∧ usedNext j = false ∧ i ≤ k ∧ k < C then
          st.temp j k - st.temp j i / st.temp p i * st.temp p k
        else st.temp j k
      ⟨tempNext, usedNext, st.rank + 1⟩

/-- One iteration of the `Rank` column loop
`for (i = 0; i < Col && rank < Row; ++i)`: once `rank` reaches `Row`
the C++ loop exits; since `rank` never decreases, guarding each
iteration by `rank < Row` yields the same final state. -/
def rankStep (R C : ℕ) (st : RankSt) (i : ℕ) : RankSt :=
  if st.rank < R then elimStep R C st i else st

/-- Models `Rank` (mat.hpp 784-821): fold the column loop over the
initial state (copy of the matrix, no row used, rank `0`) and return
the pivot count. -/
def rankQ (R C : ℕ) (A : MatQ) : ℕ :=
  ((List.range C).foldl (rankStep R C) ⟨A, fun _ => false, 0⟩).rank

/-- Models `KroneckerProduct` (mat.hpp 623-651).  The loops write the
output cell `(i * Row2 + k, j * Col2 + l)` exactly once, with value
`lhs[i, j] * rhs[k, l]`; since `(i, k) ↦ i * Row2 + k` (with
`k < Row2`) enumerates each output row index exactly once, the cell
`(p, q)` of the result holds `lhs[p / Row2, q / Col2] *
rhs[p % Row2, q % Col2]`. -/
def kroneckerQ (r2 c2 : ℕ) (A B : MatQ) : MatQ :=
  fun p q => A (p / r2) (q / c2) * B (p % r2) (q % c2)

/-- A matrix together with its (statically known) shape, used to state
the variadic `Kronecker` reduction over operands of mixed shapes. -/
structure SMat where
  rows : ℕ
  cols : ℕ
  entry : MatQ

/-- Shape-carrying `KroneckerProduct`: the result is
`(Row1 * Row2) × (Col1 * Col2)`. -/
def kroneckerProductS (X Y : SMat) : SMat :=
  ⟨X.rows * Y.rows, X.cols * Y.cols, kroneckerQ Y.rows Y.cols X.entry Y.entry⟩

/-- Models the variadic `Kronecker(first, rest...)` (mat.hpp 653-664):
a single operand is returned unchanged, otherwise
`KroneckerProduct(first, Kronecker(rest...))`. -/
def kroneckerS : SMat → List SMat → SMat
  | first, [] => first
  | first, x :: xs => kroneckerProductS first (kroneckerS x xs)

/-- Models the runtime `Range<T>::size` (range.hpp 75-83) for a
fractional element type `T`: zero for `step == 0` or misordered bounds,
otherwise `static_cast<size_t>((diff + abs_step - 1) / abs_step)` where
`diff` and `abs_step` are computed in `T` and the cast truncates. -/
def rangeSizeQ (s e st : ℚ) : ℕ :=
  if st = 0 then 0
  else if 0 < st ∧ e ≤ s then 0
  else if st < 0 ∧ s ≤ e then 0
  else
    (truncQ (((if 0 < st then e - s else s - e) + (if 0 < st then st else -st) - 1)
      / (if 0 < st then st else -st))).toNat

/-- Models the runtime `Range<T>::size` (range.hpp 75-83) for an
integer element type `T`: the same branches, with the division now the
truncating integer division of `T`. -/
def rangeSizeZ (s e st : ℤ) : ℕ :=
  if st = 0 then 0
  else if 0 < st ∧ e ≤ s then 0
  else if st < 0 ∧ s ≤ e then 0
  else
    (Int.tdiv ((if 0 < st then e - s else s - e) + (if 0 < st then st else -st) - 1)
      (if 0 < st then st else -st)).toNat

/-- Models `StaticRange<Start, End, Step>::size` (range.hpp 100-106);
`Step != 0` is enforced by a `static_assert`.  The divisions are C++
`int` divisions, truncating toward zero. -/
def staticRangeSize (s e st : ℤ) : ℤ :=
  if 0 < st then (if s < e then Int.tdiv (e - s + st - 1) st else 0)
  else (if e < s then Int.tdiv (s - e - st - 1) (-st) else 0)

/-- Models `Length` (vec.hpp 519-528): `sum` starts at `0`, the loop
adds `v[i] * v[i]`, and the result is `sqrt(sum)`. -/
noncomputable def lengthR (n : ℕ) (v : VecR) : ℝ :=
  Real.sqrt ((List.range n).foldl (fun s i => s + v i * v i) 0)

/-- Models `Normalize` (vec.hpp 531-540): when `len > 0` the scalar
division `v / len` divides every component by `len`; otherwise a
default-constructed (all-zero) vector is returned. -/
noncomputable def normalizeR (n : ℕ) (v : VecR) : VecR :=
  if 0 < lengthR n v then fun i => v i / lengthR n v else fun _ => 0

/-- Models the acceptance condition of
`Detail::ComplieTimeIndexCheckVec<Limit>` (vec.hpp 20-29): the
consteval constructor contains
`static_assert(i >= Limit, "Vec index out of bounds!")`, so a use of
the checked accessor is accepted exactly when the asserted condition
`i >= Limit` holds. -/
def complieTimeIndexCheckVec (limit i : ℕ) : Bool := decide (limit ≤ i)

/-- Models `Vec::operator[](std::size_t)` (vec.hpp 167-175): the body
is `return _data[index];` with no bounds check, so an index past the
buffer is a silent out-of-bounds read (undefined behaviour), modelled
by `none`; no failure value is ever produced. -/
def vecGetDyn (data : List ℚ) (i : ℕ) : Option ℚ := data.get? i

/-- Models `Mat::operator[](row, col)` (mat.hpp 222-230): the body is
`return _data[row * Col + col];` with no bounds check on either
coordinate, so an out-of-range column silently reads a cell of a later
row while the flat offset stays inside the buffer. -/
def matGetDynPair (col : ℕ) (data : List ℚ) (r c : ℕ) : Option ℚ :=
  data.get? (r * col + c)

/-- Models the buffer of a default-constructed `Vec<T, N>`
(vec.hpp 47): `_data.fill(0)` on `std::array<T, N>`. -/
def vecDefaultData (n : ℕ) : List ℚ := List.replicate n 0

/-- Models the buffer of a default-constructed `Mat<T, Row, Col>`
(mat.hpp 57): `_data.fill(0)` on `std::array<T, Row * Col>`. -/
def matDefaultData (r c : ℕ) : List ℚ := List.replicate (r * c) 0

/-- C1: for every square matrix `A` of size `N`, `Inverse(A)` throws the
`SingularMatrix` failure exactly when `|Det(A)| < 1e-9`, and otherwise
returns `Adjoint(A)` with every entry scaled by `1 / Det(A)`. -/
theorem inverse_singular_iff (n : ℕ) (A : MatQ) :
    (inverseQ n A = .error .singularMatrix ↔ |detQ n A| < EPS) ∧
    (¬ |detQ n A| < EPS →
      inverseQ n A = .ok (fun i j => adjointQ n A i j * (1 / detQ n A))) := by
  refine ⟨⟨fun h => ?_, fun h => ?_⟩, fun h => ?_⟩
  · by_contra hdet
    rw [inverseQ] at h
    simp only [if_neg hdet] at h
    exact Except.noConfusion h
  · rw [inverseQ]
    simp only [if_pos h]
  · rw [inverseQ]
    simp only [if_neg h]

/-- Concrete matrix `{1, 2, 3, 4}` from the specification's scenario 5. -/
def mat2Example : MatQ := fun i j =>
  if i = 0 then (if j = 0 then 1 else 2) else (if j = 0 then 3 else 4)

/-- C1 witness: the example matrix has determinant `-2`, which is not
below the epsilon, so `Inverse` succeeds with the scaled adjoint. -/
theorem inverse_singular_iff_witness :
    inverseQ 2 mat2Example
      = .ok (fun i j => adjointQ 2 mat2Example i j * (1 / detQ 2 mat2Example)) := by
  have hdet : detQ 2 mat2Example = -2 := by
    simp [detQ, mat2Example]
    norm_num
  exact (inverse_singular_iff 2 mat2Example).2 (by rw [hdet]; norm_num [EPS])

/-- Diagonal matrix `diag(1/2, 1/2)`, e.g. a `Mat<double, 2, 2>`. -/
def halfDiag : MatQ := fun i j => if i = j then 1 / 2 else 0

/-- C3 is refuted on fractional element types: the accumulator of
`Trace` is `auto trace = 0`, a C++ `int`, so each `trace += mat[i, i]`
truncates; the trace of `diag(1/2, 1/2)` is computed as `0` although
the diagonal sums to `1`. -/
theorem trace_int_accumulator_truncates :
    traceCode 2 halfDiag = 0 ∧ halfDiag 0 0 + halfDiag 1 1 = 1 := by
  constructor
  · rw [traceCode, show List.range 2 = [0, 1] from rfl]
    simp only [List.foldl_cons, List.foldl_nil, halfDiag, if_pos rfl]
    norm_num [truncQ]
  · norm_num [halfDiag]

/-- C6 is refuted: the asserted condition in the consteval constructor
is `i >= Limit`, so exactly the out-of-range indices are accepted.  For
`Vec<T, 3>`, the in-range index `0` is rejected (the assert with
message "Vec index out of bounds!" fires) while the out-of-range index
`5` is accepted. -/
theorem compile_time_index_check_inverted :
    complieTimeIndexCheckVec 3 0 = false ∧ complieTimeIndexCheckVec 3 5 = true := by
  decide

/-- C7 is refuted: dynamic indexing performs no bounds check.  On a
`Mat<T, 2, 2>` with buffer `{1, 2, 3, 4}`, the access `[0, 3]` with an
out-of-range column silently returns buffer cell `3` (the entry
`(1, 1)`, value `4`) instead of failing, and on a `Vec<T, 3>` the
access `[5]` reads past the buffer with no failure path at all. -/
theorem dynamic_index_unchecked :
    matGetDynPair 2 [1, 2, 3, 4] 0 3 = some 4 ∧ vecGetDyn [1, 2, 3] 5 = none := by
  exact ⟨rfl, rfl⟩

/-- C9: the Kronecker product places `A[i, j] * B[k, l]` at position
`(i * Row2 + k, j * Col2 + l)`, its result shape is
`(Row1 * Row2) × (Col1 * Col2)`, and the variadic `Kronecker` reduces
its operand list right-to-left by pairwise `KroneckerProduct`,
preserving the operand order. -/
theorem kronecker_product_spec :
    (∀ (r2 c2 : ℕ) (A B : MatQ) (i j k l : ℕ), k < r2 → l < c2 →
      kroneckerQ r2 c2 A B (i * r2 + k) (j * c2 + l) = A i j * B k l) ∧
    (∀ X Y : SMat, (kroneckerProductS X Y).rows = X.rows * Y.rows ∧
      (kroneckerProductS X Y).cols = X.cols * Y.cols) ∧
    (∀ X : SMat, kroneckerS X [] = X) ∧
    (∀ (X Y : SMat) (rest : List SMat),
      kroneckerS X (Y :: rest) = kroneckerProductS X (kroneckerS Y rest)) := by
  refine ⟨?_, fun X Y => ⟨rfl, rfl⟩, fun X => rfl, fun X Y rest => rfl⟩
  intro r2 c2 A B i j k l hk hl
  have hr2 : 0 < r2 := lt_of_le_of_lt (Nat.zero_le k) hk
  have hc2 : 0 < c2 := lt_of_le_of_lt (Nat.zero_le l) hl
  have h1 : (i * r2 + k) / r2 = i := by
    rw [Nat.add_comm, Nat.add_mul_div_right _ _ hr2, Nat.div_eq_of_lt hk, Nat.zero_add]
  have h2 : (i * r2 + k) % r2 = k := by
    rw [Nat.add_comm, Nat.add_mul_mod_self_right, Nat.mod_eq_of_lt hk]
  have h3 : (j * c2 + l) / c2 = j := by
    rw [Nat.add_comm, Nat.add_mul_div_right _ _ hc2, Nat.div_eq_of_lt hl, Nat.zero_add]
  have h4 : (j * c2 + l) % c2 = l := by
    rw [Nat.add_comm, Nat.add_mul_mod_self_right, Nat.mod_eq_of_lt hl]
  rw [kroneckerQ]
  rw [h1, h2, h3, h4]

/-- A concrete `2 × 2` left operand for the Kronecker witness. -/
def kronA : MatQ := fun i j => (i : ℚ) * 2 + (j : ℚ) + 1

/-- A concrete `2 × 3` right operand for the Kronecker witness. -/
def kronB : MatQ := fun i j => (i : ℚ) * 3 + (j : ℚ) + 10

/-- C9 witness: the block-entry formula at the concrete in-bounds
position `(1 * 2 + 1, 1 * 3 + 2)`. -/
theorem kronecker_product_spec_witness :
    kroneckerQ 2 3 kronA kronB (1 * 2 + 1) (1 * 3 + 2) = kronA 1 1 * kronB 1 2 :=
  kronecker_product_spec.1 2 3 kronA kronB 1 1 1 2 (by decide) (by decide)

/-- C10: every cell of the buffer of a default-constructed `Vec<T, N>`
or `Mat<T, Row, Col>` is zero. -/
theorem default_constructed_zero (n r c : ℕ) :
    (∀ i, i < n → (vecDefaultData n).get? i = some 0) ∧
    (∀ i, i < r * c → (matDefaultData r c).get? i = some 0) := by
  constructor
  · intro i hi
    rw [vecDefaultData, List.get?_eq_getElem?, List.getElem?_replicate, if_pos hi]
  · intro i hi
    rw [matDefaultData, List.get?_eq_getElem?, List.getElem?_replicate, if_pos hi]

/-- C10 witness: element `1` of a default `Vec<T, 3>` and element `3`
of a default `Mat<T, 2, 2>` are both zero. -/
theorem default_constructed_zero_witness :
    (vecDefaultData 3).get? 1 = some 0 ∧ (matDefaultData 2 2).get? 3 = some 0 :=
  ⟨(default_constructed_zero 3 2 2).1 1 (by decide),
   (default_constructed_zero 3 2 2).2 3 (by decide)⟩

/-- Folding the `Det` loop body over a list equals the alternating-sign
sum over positions, the sign of position `k` being `(-1)^k` times the
initial sign; the final sign is `(-1)^length` times the initial one. -/
theorem foldl_signed (f : ℕ → ℚ) :
    ∀ (l : List ℕ) (a : ℚ) (s : ℤ),
      l.foldl (fun (p : ℚ × ℤ) j => (p.1 + (p.2 : ℚ) * f j, -p.2)) (a, s)
        = (a + ∑ k ∈ Finset.range l.length, (((-1) ^ k * s : ℤ) : ℚ) * f (l.getD k 0),
            (-1) ^ l.length * s)
  | [], a, s => by simp
  | x :: t, a, s => by
      rw [List.foldl_cons, foldl_signed f t (a + (s : ℚ) * f x) (-s)]
      refine Prod.ext ?_ ?_
      · simp only [List.length_cons, Finset.sum_range_succ', List.getD_cons_succ,
          List.getD_cons_zero]
        have hsum : ∑ k ∈ Finset.range t.length, (((-1) ^ (k + 1) * s : ℤ) : ℚ) * f (t.getD k 0)
            = ∑ k ∈ Finset.range t.length, (((-1) ^ k * -s : ℤ) : ℚ) * f (t.getD k 0) :=
          Finset.sum_congr rfl (fun k _ => by push_cast; ring)
        rw [hsum]
        push_cast
        ring
      · dsimp only
        rw [List.length_cons, pow_succ]
        ring

/-- C2: `Det` is the recursive Laplace expansion along the first row:
a `1 × 1` determinant is the single element, a `2 × 2` determinant is
`ad - bc`, and for `N > 2` the determinant is the sum over columns `j`
of `(-1)^j * A[0, j] * Det(MinorMatrix(A, 0, j))`. -/
theorem det_laplace_first_row :
    (∀ A : MatQ, detQ 1 A = A 0 0) ∧
    (∀ A : MatQ, detQ 2 A = A 0 0 * A 1 1 - A 0 1 * A 1 0) ∧
    (∀ (n : ℕ) (A : MatQ),
      detQ (n + 3) A =
        ∑ j ∈ Finset.range (n + 3), (-1 : ℚ) ^ j * A 0 j * detQ (n + 2) (minorQ A 0 j)) := by
  refine ⟨fun A => rfl, fun A => rfl, fun n A => ?_⟩
  have hfun : (fun (p : ℚ × ℤ) j => (p.1 + (p.2 : ℚ) * A 0 j * detQ (n + 2) (minorQ A 0 j), -p.2))
      = fun (p : ℚ × ℤ) j =>
          (p.1 + (p.2 : ℚ) * ((fun m => A 0 m * detQ (n + 2) (minorQ A 0 m)) j), -p.2) := by
    funext p j
    dsimp only
    rw [mul_assoc]
  rw [show detQ (n + 3) A = ((List.range (n + 3)).foldl
        (fun (p : ℚ × ℤ) j =>
          (p.1 + (p.2 : ℚ) * A 0 j * detQ (n + 2) (minorQ A 0 j), -p.2))
        ((0 : ℚ), (1 : ℤ))).1 by rw [detQ]]
  rw [hfun, foldl_signed]
  dsimp only
  rw [List.length_range, zero_add]
  refine Finset.sum_congr rfl fun k hk => ?_
  have hk3 : k < n + 3 := Finset.mem_range.mp hk
  rw [List.getD_eq_getElem _ _ (by simpa using hk3), List.getElem_range]
  push_cast
  ring

/-- Ceiling-division identity: for positive `d` and `b` the integer
expression `(d + b - 1) / b` computes `⌈d / b⌉`. -/
theorem add_sub_one_ediv_eq_ceil (d b : ℤ) (hb : 0 < b) :
    (d + b - 1) / b = ⌈(d : ℚ) / (b : ℚ)⌉ := by
  have hmod := Int.ediv_add_emod (d + b - 1) b
  have h2 := Int.emod_nonneg (d + b - 1) (ne_of_gt hb)
  have h3 := Int.emod_lt_of_pos (d + b - 1) hb
  have hbq : (0 : ℚ) < (b : ℚ) := by exact_mod_cast hb
  have hlow : ((d + b - 1) / b - 1) * b < d := by nlinarith
  have hhigh : d ≤ ((d + b - 1) / b) * b := by nlinarith
  symm
  rw [Int.ceil_eq_iff]
  constructor
  · rw [lt_div_iff₀ hbq]
    exact_mod_cast hlow
  · rw [div_le_iff₀ hbq]
    exact_mod_cast hhigh

/-- C8 amended: for integer element types, `Range::size()` is zero when
`step == 0` or when the sign of `end - start` disagrees with (or the
difference is zero for) the sign of `step`, and otherwise equals
`ceil(|end - start| / |step|)`; `StaticRange::size` follows the same
formula.  (For fractional element types the claim fails, see the
counterexample.) -/
theorem range_size_integer (s e st : ℤ) :
    (st = 0 → rangeSizeZ s e st = 0) ∧
    (0 < st → e ≤ s → rangeSizeZ s e st = 0) ∧
    (st < 0 → s ≤ e → rangeSizeZ s e st = 0) ∧
    (0 < st → s < e →
      (rangeSizeZ s e st : ℤ) = ⌈((|e - s| : ℤ) : ℚ) / ((|st| : ℤ) : ℚ)⌉) ∧
    (st < 0 → e < s →
      (rangeSizeZ s e st : ℤ) = ⌈((|e - s| : ℤ) : ℚ) / ((|st| : ℤ) : ℚ)⌉) ∧
    (0 < st → staticRangeSize s e st
      = (if s < e then ⌈((|e - s| : ℤ) : ℚ) / ((|st| : ℤ) : ℚ)⌉ else 0)) ∧
    (st < 0 → staticRangeSize s e st
      = (if e < s then ⌈((|e - s| : ℤ) : ℚ) / ((|st| : ℤ) : ℚ)⌉ else 0)) := by
  refine ⟨fun h0 => ?_, fun hpos hle => ?_, fun hneg hle => ?_,
    fun hpos hlt => ?_, fun hneg hlt => ?_, fun hpos => ?_, fun hneg => ?_⟩
  · rw [rangeSizeZ, if_pos h0]
  · rw [rangeSizeZ, if_neg (by omega), if_pos ⟨hpos, hle⟩]
  · rw [rangeSizeZ, if_neg (by omega), if_neg (by omega), if_pos ⟨hneg, hle⟩]
  · rw [rangeSizeZ, if_neg (by omega), if_neg (by omega), if_neg (by omega)]
    rw [if_pos hpos, if_pos hpos]
    rw [Int.tdiv_eq_ediv (by omega) (by omega)]
    rw [Int.toNat_of_nonneg (Int.ediv_nonneg (by omega) (by omega))]
    rw [add_sub_one_ediv_eq_ceil (e - s) st hpos]
    rw [abs_of_nonneg (by omega : (0 : ℤ) ≤ e - s), abs_of_nonneg (by omega : (0 : ℤ) ≤ st)]
  · rw [rangeSizeZ, if_neg (by omega), if_neg (by omega), if_neg (by omega)]
    rw [if_neg (by omega : ¬ 0 < st), if_neg (by omega : ¬ 0 < st)]
    rw [Int.tdiv_eq_ediv (by omega) (by omega)]
    rw [Int.toNat_of_nonneg (Int.ediv_nonneg (by omega) (by omega))]
    rw [add_sub_one_ediv_eq_ceil (s - e) (-st) (by omega)]
    rw [abs_of_neg (by omega : e - s < 0), abs_of_neg hneg, neg_sub]
  · rw [staticRangeSize, if_pos hpos]
    by_cases hse : s < e
    · rw [if_pos hse, if_pos hse]
      rw [Int.tdiv_eq_ediv (by omega) (by omega)]
      rw [add_sub_one_ediv_eq_ceil (e - s) st hpos]
      rw [abs_of_nonneg (by omega : (0 : ℤ) ≤ e - s), abs_of_nonneg (by omega : (0 : ℤ) ≤ st)]
    · rw [if_neg hse, if_neg hse]
  · rw [staticRangeSize, if_neg (by omega)]
    by_cases hes : e < s
    · rw [if_pos hes, if_pos hes]
      rw [show s - e - st - 1 = s - e + -st - 1 by ring]
      rw [Int.tdiv_eq_ediv (by omega) (by omega)]
      rw [add_sub_one_ediv_eq_ceil (s - e) (-st) (by omega)]
      rw [abs_of_neg (by omega : e - s < 0), abs_of_neg hneg, neg_sub]
    · rw [if_neg hes, if_neg hes]

/-- C8 witness: `Range(0, 5, 2)` has size `⌈5 / 2⌉ = 3`, and
`StaticRange<0, 5, 2>` agrees. -/
theorem range_size_integer_witness :
    (rangeSizeZ 0 5 2 : ℤ) = ⌈((|5 - 0| : ℤ) : ℚ) / ((|2| : ℤ) : ℚ)⌉ ∧
    staticRangeSize 0 5 2
      = (if (0 : ℤ) < 5 then ⌈((|5 - 0| : ℤ) : ℚ) / ((|2| : ℤ) : ℚ)⌉ else 0) :=
  ⟨(range_size_integer 0 5 2).2.2.2.1 (by decide) (by decide),
   (range_size_integer 0 5 2).2.2.2.2.2.1 (by decide)⟩

/-- C8 counterexample: for `Range<double>(0, 1, 0.5)` the code computes
`static_cast<size_t>((1 + 0.5 - 1) / 0.5) = 1`, while
`ceil(|end - start| / |step|) = 2` (and the produced sequence
`0, 0.5` indeed has two elements), so the claimed formula fails for
fractional element types. -/
theorem range_size_fractional_counterexample :
    rangeSizeQ 0 1 (1 / 2) = 1 ∧
    ⌈|(1 : ℚ) - 0| / |(1 : ℚ) / 2|⌉ = 2 ∧
    (rangeSizeQ 0 1 (1 / 2) : ℤ) ≠ ⌈|(1 : ℚ) - 0| / |(1 : ℚ) / 2|⌉ := by
  have h1 : rangeSizeQ 0 1 (1 / 2) = 1 := by
    rw [rangeSizeQ]
    norm_num [truncQ]
  have h2 : ⌈|(1 : ℚ) - 0| / |(1 : ℚ) / 2|⌉ = 2 := by
    rw [show |(1 : ℚ) - 0| / |(1 : ℚ) / 2| = ((2 : ℤ) : ℚ) by
      rw [abs_of_nonneg (by norm_num : (0 : ℚ) ≤ 1 - 0),
        abs_of_nonneg (by norm_num : (0 : ℚ) ≤ 1 / 2)]
      norm_num]
    exact Int.ceil_intCast 2
  exact ⟨h1, h2, by rw [h1, h2]; decide⟩

/-- The `Length` accumulation loop computes the finite sum of squares. -/
theorem lengthR_eq_sqrt_sum (n : ℕ) (v : VecR) :
    lengthR n v = Real.sqrt (∑ i ∈ Finset.range n, v i * v i) := by
  rw [lengthR]
  congr 1
  induction n with
  | zero => simp
  | succ m ih =>
      rw [List.range_succ, List.foldl_append, ih]
      simp [Finset.sum_range_succ]

/-- C5: `Normalize(v)` is `v / Length(v)` whenever `Length(v)` is
nonzero, the length of the normalized vector is within epsilon of `1`
for every vector with a nonzero in-bounds component, and when
`Length(v)` is zero the zero vector is returned unchanged (no
division-by-zero fault). -/
theorem normalize_spec :
    (∀ (n : ℕ) (v : VecR), lengthR n v ≠ 0 →
      normalizeR n v = fun i => v i / lengthR n v) ∧
    (∀ (n : ℕ) (v : VecR), (∃ i, i < n ∧ v i ≠ 0) →
      |lengthR n (normalizeR n v) - 1| ≤ 1 / 1000000000) ∧
    (∀ (n : ℕ) (v : VecR), lengthR n v = 0 →
      normalizeR n v = (fun _ => 0) ∧ ∀ i, i < n → normalizeR n v i = v i) := by
  have hnonneg : ∀ (n : ℕ) (v : VecR), 0 ≤ ∑ i ∈ Finset.range n, v i * v i :=
    fun n v => Finset.sum_nonneg fun i _ => mul_self_nonneg (v i)
  refine ⟨fun n v h => ?_, fun n v h => ?_, fun n v h => ?_⟩
  · have hge : 0 ≤ lengthR n v := by
      rw [lengthR_eq_sqrt_sum]
      exact Real.sqrt_nonneg _
    have hpos : 0 < lengthR n v := lt_of_le_of_ne hge (Ne.symm h)
    rw [normalizeR, if_pos hpos]
  · obtain ⟨i0, hi0, hv0⟩ := h
    have hS : 0 < ∑ i ∈ Finset.range n, v i * v i := by
      refine Finset.sum_pos' (fun i _ => mul_self_nonneg (v i)) ?_
      exact ⟨i0, Finset.mem_range.mpr hi0, mul_self_pos.mpr hv0⟩
    have hlen : 0 < lengthR n v := by
      rw [lengthR_eq_sqrt_sum]
      exact Real.sqrt_pos.mpr hS
    have hnorm : normalizeR n v = fun i => v i / lengthR n v := by
      rw [normalizeR, if_pos hlen]
    have hlen2 : lengthR n v * lengthR n v = ∑ i ∈ Finset.range n, v i * v i := by
      rw [lengthR_eq_sqrt_sum]
      exact Real.mul_self_sqrt (hnonneg n v)
    have hone : lengthR n (normalizeR n v) = 1 := by
      rw [hnorm, lengthR_eq_sqrt_sum]
      have hterm : ∀ i, v i / lengthR n v * (v i / lengthR n v)
          = v i * v i / (lengthR n v * lengthR n v) := fun i => div_mul_div_comm _ _ _ _
      rw [Finset.sum_congr rfl fun i _ => hterm i]
      rw [← Finset.sum_div, hlen2, div_self (ne_of_gt hS), Real.sqrt_one]
    rw [hone]
    norm_num
  · have hnot : ¬ 0 < lengthR n v := by rw [h]; exact lt_irrefl 0
    have hzero : normalizeR n v = fun _ => 0 := by rw [normalizeR, if_neg hnot]
    refine ⟨hzero, fun i hi => ?_⟩
    have hS0 : ∑ k ∈ Finset.range n, v k * v k = 0 := by
      rw [lengthR_eq_sqrt_sum] at h
      have := Real.sqrt_eq_zero'.mp h
      exact le_antisymm this (hnonneg n v)
    have hvi : v i = 0 := by
      have := (Finset.sum_eq_zero_iff_of_nonneg
        (fun k _ => mul_self_nonneg (v k))).mp hS0 i (Finset.mem_range.mpr hi)
      exact mul_self_eq_zero.mp this
    rw [hzero, hvi]

/-- Concrete vector `(3, 4, 0)` with length `5`. -/
noncomputable def vec340 : VecR := fun i => if i = 0 then 3 else if i = 1 then 4 else 0

/-- C5 witness: normalizing `(3, 4, 0)` divides by the nonzero length
and yields a vector of length within epsilon of `1`. -/
theorem normalize_spec_witness :
    normalizeR 3 vec340 = (fun i => vec340 i / lengthR 3 vec340) ∧
    |lengthR 3 (normalizeR 3 vec340) - 1| ≤ 1 / 1000000000 := by
  have hsum : ∑ i ∈ Finset.range 3, vec340 i * vec340 i = 25 := by
    rw [Finset.sum_range_succ, Finset.sum_range_succ, Finset.sum_range_succ,
      Finset.sum_range_zero]
    norm_num [vec340]
  have hlen : lengthR 3 vec340 ≠ 0 := by
    rw [lengthR_eq_sqrt_sum, hsum]
    rw [Real.sqrt_ne_zero']
    norm_num
  exact ⟨normalize_spec.1 3 vec340 hlen,
    normalize_spec.2.1 3 vec340 ⟨0, by norm_num, by norm_num [vec340]⟩⟩

/-- `find?` over `range' a m` returns `i` when the predicate holds at
`i`, fails strictly before `i`, and `i` lies in the enumerated range. -/
theorem find?_range'_eq (p : ℕ → Bool) :
    ∀ (m a i : ℕ), a ≤ i → i < a + m → p i = true →
      (∀ j, a ≤ j → j < i → p j = false) →
      (List.range' a m).find? p = some i := by
  intro m
  induction m with
  | zero => intro a i h1 h2 _ _; omega
  | succ m ih =>
      intro a i h1 h2 hp hbefore
      rw [List.range'_succ]
      rcases Nat.eq_or_lt_of_le h1 with heq | hlt
      · subst heq
        exact List.find?_cons_of_pos _ hp
      · rw [List.find?_cons_of_neg _ (by simp [hbefore a le_rfl hlt])]
        exact ih (a + 1) i hlt (by omega) hp fun j hj1 hj2 => hbefore j (by omega) hj2

/-- Invariant of the `Rank` column loop on the identity matrix: after
processing columns `0, ..., i - 1`, the working copy is still the
identity, exactly the rows below `i` are used, and the rank is `i`;
processing the remaining `m = n - i` columns then yields rank `n`. -/
theorem rank_identity_aux (n : ℕ) :
    ∀ (m i : ℕ), i + m = n → ∀ st : RankSt,
      (∀ j k, j < n → k < n → st.temp j k = makeIdentity n j k) →
      (∀ j, st.used j = decide (j < i)) →
      st.rank = i →
      ((List.range' i m).foldl (rankStep n n) st).rank = n := by
  intro m
  induction m with
  | zero =>
      intro i hi st _ _ hrank
      simp only [List.range'_zero, List.foldl_nil]
      omega
  | succ m ih =>
      intro i hi st htemp hused hrank
      have hin : i < n := by omega
      rw [List.range'_succ, List.foldl_cons]
      have hpiv : findPivot n st i = some i := by
        rw [findPivot, List.range_eq_range']
        apply find?_range'_eq _ n 0 i (Nat.zero_le i) (by omega)
        · have h1 : st.used i = false := by rw [hused]; simp
          have h2 : st.temp i i = 1 := by
            rw [htemp i i hin hin, makeIdentity]
            simp [hin]
          rw [h1, h2]
          simp only [Bool.not_false, Bool.true_and, decide_eq_true_eq]
          rw [abs_one]
          norm_num [EPS]
        · intro j _ hj2
          have : st.used j = true := by rw [hused]; simp [hj2]
          rw [this]
          simp
      have hguard : st.rank < n := by omega
      rw [rankStep, if_pos hguard]
      rw [elimStep, hpiv]
      refine ih (i + 1) (by omega) _ ?_ ?_ ?_
      · intro j k hj hk
        dsimp only
        by_cases hcase : j < n ∧ (if j = i then true else st.used j) = false ∧ i ≤ k ∧ k < n
        · rw [if_pos hcase]
          obtain ⟨-, husedj, -, -⟩ := hcase
          have hji : j ≠ i := by
            intro hcontra
            rw [if_pos hcontra] at husedj
            exact Bool.noConfusion husedj
          have hjge : ¬ j < i := by
            intro hlt
            rw [if_neg hji, hused] at husedj
            simp [hlt] at husedj
          have htji : st.temp j i = 0 := by
            rw [htemp j i hj hin, makeIdentity]
            simp [hji]
          rw [htji, htemp j k hj hk]
          simp
        · rw [if_neg hcase]
          exact htemp j k hj hk
      · intro j
        dsimp only
        by_cases hji : j = i
        · subst hji
          simp
        · rw [if_neg hji, hused]
          rw [decide_eq_decide]
          omega
      · dsimp only
        omega

/-- C4: for every size `N`, the Gaussian-elimination `Rank` of the
`N × N` identity matrix produced by `MakeIdentity` is `N` — each column
search finds the diagonal pivot `1`, and every elimination subtracts a
zero multiple, leaving the matrix unchanged. -/
theorem rank_identity (n : ℕ) : rankQ n n (makeIdentity n) = n := by
  rw [rankQ, List.range_eq_range']
  exact rank_identity_aux n n 0 (by omega) ⟨makeIdentity n, fun _ => false, 0⟩
    (fun j k _ _ => rfl) (fun j => by simp) rfl
